import Mathlib

/-!
Shallow embedding of the `go-stdlib/go-errors` repository.

Source files embedded:
  * `internal/canonical.go` — the `Canonical` error value, `Flags`, `Extras`,
    `ErrUnknown`, and the `Copy`/`Equal`/`IsZero`/`Wrap` operations.
  * the group file — `Group`, `NewGroup`, `Append`, `ErrorOrNil`, `Unwrap`,
    the `chain` cursor and `GroupFormatterDefault`.

Modelling decisions:
  * Go `error` values are modelled by the inductive `GoErr`.  Its
    constructors are the error-shaped values the package manipulates:
    a `Canonical` value, a `*Group` value (carrying its `Errors` slice),
    a `chain` value, and an opaque foreign error (its rendered text plus
    an optional wrapped error, as produced by `fmt.Errorf` with `%w`).
    A Go `nil` error is `Option.none` at use sites.
  * `errors.As(err, &target)` walks the unwrap chain of `err`:
    at each link it first tries a type match, then the link's own
    `As` method (only `chain` has one), then follows `Unwrap`.
    `asCanonical` and `asGroup` below implement exactly this walk for the
    two target types used by the package (`Canonical` and `*Group`).
  * `Flags` is `uint8`; it is modelled as `Nat` (all package operations on
    values below 2^8 stay below 2^8, so no explicit truncation arises).
  * `time.Duration` (in `Extras.Delay`) is an `int64`, modelled as `Int`.
  * `Group.Formatter` is a function-valued field; every group built by
    `NewGroup` carries `GroupFormatterDefault`, which is what the model's
    rendering of a group uses.  Custom formatters are outside the model.
-/

namespace GoErrors

/-- `Extras` from `internal/extras.go`: common additional info attached to
errors (`Delay`, `Links`, `StackTrace`, `Tags`). -/
structure Extras where
  Delay : Int := 0
  Links : List String := []
  StackTrace : String := ""
  Tags : List String := []
deriving DecidableEq, Repr

instance : Inhabited Extras := ⟨{}⟩

/-- `Flags` from `internal/flags.go`: a `uint8` bitmask. -/
abbrev Flags := Nat

/-- `FlagUnknown Flags = 1 << iota` (iota = 0). -/
def FlagUnknown : Flags := 1
/-- `FlagRetryable` (iota = 1). -/
def FlagRetryable : Flags := 2
/-- `FlagTimeout` (iota = 2). -/
def FlagTimeout : Flags := 4

/-- `func (f Flags) Clear(bits Flags) Flags { return f &^ bits }`
(Go `&^` is bitwise AND-NOT, i.e. `Nat.ldiff`). -/
def Flags.Clear (f bits : Flags) : Flags := Nat.ldiff f bits

/-- `func (f Flags) Has(bits Flags) bool { return f&bits != 0 }` -/
def Flags.Has (f bits : Flags) : Bool := f &&& bits != 0

/-- `func (f Flags) Set(bits Flags) Flags { return f | bits }` -/
def Flags.Set (f bits : Flags) : Flags := f ||| bits

/-- `func (f Flags) Toggle(bits Flags) Flags { return f ^ bits }` -/
def Flags.Toggle (f bits : Flags) : Flags := f ^^^ bits

/-- The error-shaped values of the package; see the header comment.
`canonical` carries the fields of a `Canonical` value in declaration order
(`Code`, `Extras`, `Flags`, `Message`, `Namespace`, `Wrapped`); `group`
carries a `*Group`'s `Errors` slice; `chainE` carries a `chain` slice;
`foreign` is an error from outside the package. -/
inductive GoErr : Type where
  | canonical (code : String) (extras : Extras) (flags : Flags)
      (message : String) (ns : String) (wrapped : Option GoErr) : GoErr
  | group (errs : List GoErr) : GoErr
  | chainE (errs : List GoErr) : GoErr
  | foreign (msg : String) (wrapped : Option GoErr) : GoErr

/-- `Canonical` from `internal/canonical.go`, with the Go zero value as the
default for every field. -/
structure Canonical where
  Code : String := ""
  Extras : Extras := {}
  Flags : Flags := 0
  Message : String := ""
  Namespace : String := ""
  Wrapped : Option GoErr := none

/-- View a `Canonical` as a Go `error` (the value boxed in an interface). -/
def Canonical.toErr (c : Canonical) : GoErr :=
  .canonical c.Code c.Extras c.Flags c.Message c.Namespace c.Wrapped

mutual

/-- `errors.As(e, &ce)` for target type `Canonical`: succeeds on the first
link of the unwrap chain that is a `Canonical` (a `chain` link delegates to
its member 0 via its `As` method, then advances via `Unwrap`; a `*Group`
link unwraps to its single member or to a `chain` over its members; both
walks amount to scanning the member list in order). -/
def asCanonical : GoErr → Option Canonical
  | .canonical code extras flags message ns wrapped =>
      some ⟨code, extras, flags, message, ns, wrapped⟩
  | .group errs => asCanonicalList errs
  | .chainE errs => asCanonicalList errs
  | .foreign _ none => none
  | .foreign _ (some w) => asCanonical w

/-- Scan a member list for the first member whose chain holds a `Canonical`. -/
def asCanonicalList : List GoErr → Option Canonical
  | [] => none
  | e :: rest =>
    match asCanonical e with
    | some c => some c
    | none => asCanonicalList rest

end

mutual

/-- `errors.As(e, &eg)` for target type `*Group`: succeeds on the first link
of the unwrap chain that is a `*Group`, returning its `Errors` slice. -/
def asGroup : GoErr → Option (List GoErr)
  | .canonical _ _ _ _ _ none => none
  | .canonical _ _ _ _ _ (some w) => asGroup w
  | .group errs => some errs
  | .chainE errs => asGroupList errs
  | .foreign _ none => none
  | .foreign _ (some w) => asGroup w

/-- Scan a member list for the first member whose chain holds a `*Group`. -/
def asGroupList : List GoErr → Option (List GoErr)
  | [] => none
  | e :: rest =>
    match asGroup e with
    | some g => some g
    | none => asGroupList rest

end

/-- A value extracted by `asCanonical` is no larger than the error it came
from (the extracted `Canonical` is a sub-structure of some chain link);
needed only to justify the recursion in `Canonical.Copy`. -/
theorem asCanonical_sizeOf :
    ∀ e : GoErr, ∀ c : Canonical, asCanonical e = some c → sizeOf c ≤ sizeOf e := by
  apply asCanonical.induct
    (fun e => ∀ c, asCanonical e = some c → sizeOf c ≤ sizeOf e)
    (fun l => ∀ c, asCanonicalList l = some c → sizeOf c < sizeOf l)
  case case1 =>
    intro code extras flags message ns wrapped c hc
    simp only [asCanonical, Option.some.injEq] at hc
    subst hc
    simp only [GoErr.canonical.sizeOf_spec, GoErr.group.sizeOf_spec, GoErr.chainE.sizeOf_spec, GoErr.foreign.sizeOf_spec, Canonical.mk.sizeOf_spec, List.cons.sizeOf_spec, Option.some.sizeOf_spec] at *
    omega
  case case2 =>
    intro errs ih c hc
    simp only [asCanonical] at hc
    have := ih c hc
    simp only [GoErr.canonical.sizeOf_spec, GoErr.group.sizeOf_spec, GoErr.chainE.sizeOf_spec, GoErr.foreign.sizeOf_spec, Canonical.mk.sizeOf_spec, List.cons.sizeOf_spec, Option.some.sizeOf_spec] at *
    omega
  case case3 =>
    intro errs ih c hc
    simp only [asCanonical] at hc
    have := ih c hc
    simp only [GoErr.canonical.sizeOf_spec, GoErr.group.sizeOf_spec, GoErr.chainE.sizeOf_spec, GoErr.foreign.sizeOf_spec, Canonical.mk.sizeOf_spec, List.cons.sizeOf_spec, Option.some.sizeOf_spec] at *
    omega
  case case4 =>
    intro msg c hc
    simp [asCanonical] at hc
  case case5 =>
    intro msg w ih c hc
    simp only [asCanonical] at hc
    have := ih c hc
    simp only [GoErr.canonical.sizeOf_spec, GoErr.group.sizeOf_spec, GoErr.chainE.sizeOf_spec, GoErr.foreign.sizeOf_spec, Canonical.mk.sizeOf_spec, List.cons.sizeOf_spec, Option.some.sizeOf_spec] at *
    omega
  case case6 =>
    intro c hc
    simp [asCanonicalList] at hc
  case case7 =>
    intro e rest c' he ih c hc
    simp only [asCanonicalList, he, Option.some.injEq] at hc
    subst hc
    have := ih c' he
    simp only [GoErr.canonical.sizeOf_spec, GoErr.group.sizeOf_spec, GoErr.chainE.sizeOf_spec, GoErr.foreign.sizeOf_spec, Canonical.mk.sizeOf_spec, List.cons.sizeOf_spec, Option.some.sizeOf_spec] at *
    omega
  case case8 =>
    intro e rest he ih ihl c hc
    simp only [asCanonicalList, he] at hc
    have := ihl c hc
    simp only [GoErr.canonical.sizeOf_spec, GoErr.group.sizeOf_spec, GoErr.chainE.sizeOf_spec, GoErr.foreign.sizeOf_spec, Canonical.mk.sizeOf_spec, List.cons.sizeOf_spec, Option.some.sizeOf_spec] at *
    omega

/-- `Canonical.Copy` from `internal/canonical.go`: rebuilds the value; when
`Wrapped` is non-nil and downcasts (`errors.As`) to a `Canonical`, the
wrapped value is replaced by a recursive `Copy` of that `Canonical`;
otherwise the foreign `Wrapped` value is carried over as is. -/
def Canonical.Copy (c : Canonical) : Canonical :=
  match hw : c.Wrapped with
  | some w =>
    match hc : asCanonical w with
    | some wrapped =>
      { Code := c.Code, Extras := c.Extras, Flags := c.Flags,
        Message := c.Message, Namespace := c.Namespace,
        Wrapped := some (Canonical.toErr (Canonical.Copy wrapped)) }
    | none =>
      { Code := c.Code, Extras := c.Extras, Flags := c.Flags,
        Message := c.Message, Namespace := c.Namespace,
        Wrapped := c.Wrapped }
  | none =>
    { Code := c.Code, Extras := c.Extras, Flags := c.Flags,
      Message := c.Message, Namespace := c.Namespace,
      Wrapped := c.Wrapped }
termination_by sizeOf c
decreasing_by
  have h1 := asCanonical_sizeOf w wrapped hc
  have h2 : sizeOf (some w) ≤ sizeOf c.Wrapped := by rw [hw]
  cases c
  simp only [GoErr.canonical.sizeOf_spec, GoErr.group.sizeOf_spec, GoErr.chainE.sizeOf_spec, GoErr.foreign.sizeOf_spec, Canonical.mk.sizeOf_spec, List.cons.sizeOf_spec, Option.some.sizeOf_spec] at *
  omega

/-- `Canonical.Equal`: downcasts the argument to a `Canonical` via
`errors.As` (false when that fails), then compares `Code`, `Message`,
`Namespace`, `Flags` and deep-equality of `Extras`; `Wrapped` is ignored. -/
def Canonical.Equal (c : Canonical) (e : GoErr) : Bool :=
  match asCanonical e with
  | none => false
  | some ce =>
    c.Code == ce.Code &&
    c.Message == ce.Message &&
    c.Namespace == ce.Namespace &&
    c.Flags == ce.Flags &&
    c.Extras == ce.Extras

/-- `Canonical.IsZero`: the source computes
`reflect.DeepEqual(c, new(Canonical))`.  `c` is a `Canonical` value while
`new(Canonical)` is a `*Canonical` pointer; `reflect.DeepEqual` reports
false whenever its operands have distinct types, so the comparison is false
for every receiver — including the freshly zero-initialized one.  The
field-wise zero test the doc comment ("true if the Canonical is an
empty/zero value") intends never happens. -/
def Canonical.IsZero (_ : Canonical) : Bool :=
  false

/-- `DefaultNamespace` from `internal/canonical.go`. -/
def DefaultNamespace : String := "go-stdlib/go-errors"

/-- `ErrUnknown` from `internal/canonical.go`. -/
def ErrUnknown : Canonical :=
  { Code := "unknown", Flags := FlagUnknown,
    Message := "wrapped error is unknown", Namespace := DefaultNamespace }

/-- `Canonical.Wrap`: nil argument returns the receiver unchanged; when
`c.IsZero()` holds and the argument downcasts to `Canonical`, a `Copy` of
that `Canonical`; otherwise a new `Canonical` with the receiver's fields and
`Wrapped` set to the argument.  Because `IsZero` is constantly false in the
source (see its comment), the copy branch is dead code; it is kept here to
mirror the source's structure. -/
def Canonical.Wrap (c : Canonical) (err : Option GoErr) : Canonical :=
  match err with
  | none => c
  | some e =>
    if c.IsZero then
      match asCanonical e with
      | some ce => ce.Copy
      | none =>
        { Code := c.Code, Extras := c.Extras, Flags := c.Flags,
          Message := c.Message, Namespace := c.Namespace, Wrapped := some e }
    else
      { Code := c.Code, Extras := c.Extras, Flags := c.Flags,
        Message := c.Message, Namespace := c.Namespace, Wrapped := some e }

mutual

/-- Structural size of an error value (computable termination-measure
helper; the derived `SizeOf` of the nested inductive is not executable). -/
def GoErr.size : GoErr → Nat
  | .canonical _ _ _ _ _ none => 1
  | .canonical _ _ _ _ _ (some w) => 1 + GoErr.size w
  | .group errs => 1 + GoErr.sizeList errs
  | .chainE errs => 1 + GoErr.sizeList errs
  | .foreign _ none => 1
  | .foreign _ (some w) => 1 + GoErr.size w

/-- Total structural size of a list of error values. -/
def GoErr.sizeList : List GoErr → Nat
  | [] => 0
  | e :: rest => GoErr.size e + GoErr.sizeList rest

end

theorem GoErr.size_pos : ∀ e : GoErr, 1 ≤ GoErr.size e := by
  intro e
  cases e with
  | canonical code extras flags message ns wrapped =>
    cases wrapped <;> simp [GoErr.size]
  | group errs => simp [GoErr.size]
  | chainE errs => simp [GoErr.size]
  | foreign msg wrapped => cases wrapped <;> simp [GoErr.size]

/-- The member list delivered by `asGroup` weighs strictly less than the
error it was extracted from; justifies the recursion in `Group.Append`. -/
theorem asGroup_size :
    ∀ e : GoErr, ∀ gs : List GoErr, asGroup e = some gs → GoErr.sizeList gs < GoErr.size e := by
  apply asGroup.induct
    (fun e => ∀ gs, asGroup e = some gs → GoErr.sizeList gs < GoErr.size e)
    (fun l => ∀ gs, asGroupList l = some gs → GoErr.sizeList gs < GoErr.sizeList l)
  case case1 =>
    intro code extras flags message ns gs hg
    simp [asGroup] at hg
  case case2 =>
    intro code extras flags message ns w ih gs hg
    simp only [asGroup] at hg
    have := ih gs hg
    simp only [GoErr.size]
    omega
  case case3 =>
    intro errs gs hg
    simp only [asGroup, Option.some.injEq] at hg
    subst hg
    simp only [GoErr.size]
    omega
  case case4 =>
    intro errs ih gs hg
    simp only [asGroup] at hg
    have := ih gs hg
    simp only [GoErr.size]
    omega
  case case5 =>
    intro msg gs hg
    simp [asGroup] at hg
  case case6 =>
    intro msg w ih gs hg
    simp only [asGroup] at hg
    have := ih gs hg
    simp only [GoErr.size]
    omega
  case case7 =>
    intro gs hg
    simp [asGroupList] at hg
  case case8 =>
    intro e rest g' he ih gs hg
    simp only [asGroupList, he, Option.some.injEq] at hg
    subst hg
    have h1 := ih g' he
    simp only [GoErr.sizeList]
    omega
  case case9 =>
    intro e rest he ih ihl gs hg
    simp only [asGroupList, he] at hg
    have := ihl gs hg
    simp only [GoErr.sizeList]
    omega

/-- Weight of an argument list of Go `error`s (`none` = a nil error). -/
def listWeight : List (Option GoErr) → Nat
  | [] => 0
  | none :: rest => listWeight rest
  | some e :: rest => GoErr.size e + listWeight rest

theorem listWeight_map_some :
    ∀ gs : List GoErr, listWeight (gs.map some) = GoErr.sizeList gs := by
  intro gs
  induction gs with
  | nil => rfl
  | cons e rest ih => simp [listWeight, GoErr.sizeList, ih]

/-- `Group` from the group file.  The `Formatter` field is function-valued
and always `GroupFormatterDefault` for groups built by `NewGroup`; it is not
carried in the model (see the header comment). -/
structure Group where
  Errors : List GoErr

/-- `Group.Append`: for each argument in order — skip nil; if the argument's
unwrap chain reaches a `*Group` (`errors.As`), recursively append that
group's `Slice()` (flattening); else if the chain reaches an `Error`
(i.e. a `Canonical`, the only implementor), append it; else append
`ErrUnknown.Wrap(err)`.  (The source's final `if e == nil` guard can never
fire: `errors.As` only succeeds with a non-nil value and `Wrap` returns a
non-nil value.) -/
def Group.Append : Group → List (Option GoErr) → Group
  | g, [] => g
  | g, none :: rest => Group.Append g rest
  | g, some e :: rest =>
    match hg : asGroup e with
    | some gs => Group.Append (Group.Append g (gs.map some)) rest
    | none =>
      match asCanonical e with
      | some ce => Group.Append ⟨g.Errors ++ [ce.toErr]⟩ rest
      | none => Group.Append ⟨g.Errors ++ [(ErrUnknown.Wrap (some e)).toErr]⟩ rest
termination_by _ errs => (listWeight errs, errs.length)
decreasing_by
  · simp only [listWeight, List.length_cons]
    apply Prod.Lex.right
    omega
  · simp only [listWeight]
    apply Prod.Lex.left
    rw [listWeight_map_some]
    have h1 := asGroup_size e gs hg
    omega
  · simp only [listWeight]
    apply Prod.Lex.left
    have := GoErr.size_pos e
    omega
  · simp only [listWeight]
    apply Prod.Lex.left
    have := GoErr.size_pos e
    omega
  · simp only [listWeight]
    apply Prod.Lex.left
    have := GoErr.size_pos e
    omega

/-- The flat list of members a given argument list contributes to a group
under `Append` (specification helper; `Group.Append_eq` below relates it to
`Group.Append`). -/
def contribs : List (Option GoErr) → List GoErr
  | [] => []
  | none :: rest => contribs rest
  | some e :: rest =>
    match hg : asGroup e with
    | some gs => contribs (gs.map some) ++ contribs rest
    | none =>
      match asCanonical e with
      | some ce => ce.toErr :: contribs rest
      | none => (ErrUnknown.Wrap (some e)).toErr :: contribs rest
termination_by errs => (listWeight errs, errs.length)
decreasing_by
  · simp only [listWeight, List.length_cons]
    apply Prod.Lex.right
    omega
  · simp only [listWeight]
    apply Prod.Lex.left
    rw [listWeight_map_some]
    have h1 := asGroup_size e gs hg
    omega
  · simp only [listWeight]
    apply Prod.Lex.left
    have := GoErr.size_pos e
    omega
  · simp only [listWeight]
    apply Prod.Lex.left
    have := GoErr.size_pos e
    omega

/-- `NewGroup`: a fresh group (empty `Errors`, default formatter) with the
given errors appended. -/
def NewGroup (errs : List (Option GoErr)) : Group :=
  Group.Append ⟨[]⟩ errs

/-- `Group.Empty`: nil-receiver-safe emptiness test. -/
def Group.Empty (g : Option Group) : Bool :=
  match g with
  | none => true
  | some g => g.Errors.length == 0

/-- `Group.ErrorOrNil`: nil receiver or nil/empty `Errors` gives nil,
otherwise the group itself as an error value. -/
def Group.ErrorOrNil (g : Option Group) : Option GoErr :=
  match g with
  | none => none
  | some g => if g.Errors.isEmpty then none else some (.group g.Errors)

namespace chain

/-- `chain.Unwrap`: nil if at most one member remains, else a chain over the
members from index 1 on. -/
def Unwrap (e : List GoErr) : Option GoErr :=
  if e.length ≤ 1 then none else some (.chainE (e.drop 1))

end chain

/-- `Group.Unwrap`: nil receiver or no members gives nil; exactly one member
is returned directly; otherwise a `chain` over a shallow copy of the member
slice (the copy holds the same member values, so the model keeps the list). -/
def Group.Unwrap (g : Option Group) : Option GoErr :=
  match g with
  | none => none
  | some g =>
    if g.Errors.length = 0 then none
    else if g.Errors.length = 1 then g.Errors.head?
    else some (.chainE g.Errors)

/-- The chain contents reached after `n` sequential `chain.Unwrap` steps
starting from a chain holding `es` (`none` once traversal has ended). -/
def chainAt : List GoErr → Nat → Option (List GoErr)
  | es, 0 => some es
  | es, n + 1 =>
    match chain.Unwrap es with
    | some (GoErr.chainE es') => chainAt es' n
    | _ => none

/-- `strings.Join` from the Go standard library. -/
def joinStrings (sep : String) : List String → String
  | [] => ""
  | [s] => s
  | s :: rest => s ++ sep ++ joinStrings sep rest

mutual

/-- `Error()` rendering of each error shape: `Canonical.Error` renders
`"[<Namespace>:<Code>] <Message>"` plus `"\n-> <wrapped>"` when wrapped;
a group renders via its formatter (default); a chain renders its member 0
(or `""` when empty); a foreign error renders its stored text. -/
def errorString : GoErr → String
  | .canonical code _ _ message ns wrapped =>
    "[" ++ ns ++ ":" ++ code ++ "] " ++ message ++
      (match wrapped with
       | none => ""
       | some w => "\n-> " ++ errorString w)
  | .group errs => GroupFormatterDefault errs
  | .chainE [] => ""
  | .chainE (e :: _) => errorString e
  | .foreign msg _ => msg

/-- `GroupFormatterDefault`: `""` for no errors; the single error's text for
one; otherwise each error as a `"* "` bullet line, joined with `"\n"` and
wrapped in a leading `"\n"` and trailing `"\n\n"`. -/
def GroupFormatterDefault : List GoErr → String
  | [] => ""
  | [e] => errorString e
  | errs => "\n" ++ joinStrings "\n" (bulletPoints errs) ++ "\n\n"

/-- The `points` slice built by `GroupFormatterDefault`. -/
def bulletPoints : List GoErr → List String
  | [] => []
  | e :: rest => ("* " ++ errorString e) :: bulletPoints rest

end

/-! ## Basic lemmas about the Canonical operations -/

/-- Viewing a `Canonical` boxed as an error gives back the same value. -/
theorem asCanonical_toErr (c : Canonical) : asCanonical c.toErr = some c := rfl

/-- `Copy` leaves every field except `Wrapped` unchanged. -/
theorem Canonical.Copy_fields (c : Canonical) :
    c.Copy.Code = c.Code ∧ c.Copy.Extras = c.Extras ∧ c.Copy.Flags = c.Flags ∧
    c.Copy.Message = c.Message ∧ c.Copy.Namespace = c.Namespace := by
  rw [Canonical.Copy]
  split
  · split <;> exact ⟨rfl, rfl, rfl, rfl, rfl⟩
  · exact ⟨rfl, rfl, rfl, rfl, rfl⟩

/-- A copy is `Equal` to the original (`Equal` ignores `Wrapped`, the only
field `Copy` may change). -/
theorem Canonical.Copy_Equal_self (c : Canonical) : c.Copy.Equal c.toErr = true := by
  have h := Canonical.Copy_fields c
  simp only [Canonical.Equal, asCanonical_toErr, h.1, h.2.1, h.2.2.1, h.2.2.2.1, h.2.2.2.2,
    beq_self_eq_true, Bool.and_self]

/-- C1 (code bug): the claim — like the source's own doc comment — says
`IsZero()` is true exactly when every field equals its zero value, in
particular true at a freshly zero-initialized `Canonical`.  The code instead
compares the receiver value against a `*Canonical` pointer via
`reflect.DeepEqual`, which is false across distinct types, so `IsZero()`
evaluates to false at the zero value (the claim's failing input) and at
every other receiver. -/
theorem canonical_isZero_code_bug :
    ({} : Canonical).IsZero = false ∧ ∀ c : Canonical, c.IsZero = false :=
  ⟨rfl, fun _ => rfl⟩

/-- C5: `a.Equal(b)` holds exactly when `Code`, `Message`, `Namespace`,
`Flags` are equal and `Extras` are deep-equal — the `Wrapped` chains of `a`
and `b` play no role; and `Equal` is false whenever the argument cannot be
viewed as a `Canonical`. -/
theorem canonical_equal_spec :
    (∀ a b : Canonical, a.Equal b.toErr = true ↔
      (a.Code = b.Code ∧ a.Message = b.Message ∧ a.Namespace = b.Namespace ∧
       a.Flags = b.Flags ∧ a.Extras = b.Extras)) ∧
    ∀ (a : Canonical) (e : GoErr), asCanonical e = none → a.Equal e = false := by
  constructor
  · intro a b
    simp [Canonical.Equal, asCanonical_toErr, and_assoc]
  · intro a e h
    simp [Canonical.Equal, h]

/-- Witness for C5: two concrete `Canonical`s that differ only in their
`Wrapped` chains are `Equal`. -/
theorem canonical_equal_spec_witness :
    Canonical.Equal
      { Code := "x", Message := "m", Namespace := "n",
        Wrapped := some (GoErr.foreign "boom" none) }
      (Canonical.toErr { Code := "x", Message := "m", Namespace := "n" }) = true :=
  (canonical_equal_spec.1 _ _).mpr ⟨rfl, rfl, rfl, rfl, rfl⟩

/-- C7: `c.Copy().Equal(c)` holds for every `c`; `Copy` recursively copies
`Wrapped` when it downcasts to a `Canonical`, and otherwise carries the
foreign `Wrapped` value over unchanged (shared, not copied). -/
theorem canonical_copy_spec :
    ∀ c : Canonical,
      c.Copy.Equal c.toErr = true ∧
      (c.Wrapped = none → c.Copy = c) ∧
      ∀ w, c.Wrapped = some w →
        (∀ wc, asCanonical w = some wc →
          c.Copy = { c with Wrapped := some (Canonical.toErr wc.Copy) }) ∧
        (asCanonical w = none → c.Copy = c) := by
  intro c
  refine ⟨Canonical.Copy_Equal_self c, ?_, ?_⟩
  · intro h
    rw [Canonical.Copy]
    cases c with
    | mk code extras flags message ns wrapped =>
      simp only at h
      subst h
      rfl
  · intro w hw
    constructor
    · intro wc hwc
      cases c with
      | mk code extras flags message ns wrapped =>
        simp only at hw
        subst hw
        rw [Canonical.Copy]
        split
        · next w' hw' =>
          injection hw' with h
          subst h
          split
          · next wc' hwc' =>
            rw [hwc] at hwc'
            injection hwc' with h
            subst h
            rfl
          · next hwc' => rw [hwc] at hwc'; cases hwc'
        · next hw' => cases hw'
    · intro hwc
      cases c with
      | mk code extras flags message ns wrapped =>
        simp only at hw
        subst hw
        rw [Canonical.Copy]
        split
        · next w' hw' =>
          injection hw' with h
          subst h
          split
          · next wc' hwc' => rw [hwc] at hwc'; cases hwc'
          · rfl
        · next hw' => cases hw'

/-- Witness for C7: copying a concrete two-link chain copies the wrapped
`Canonical` recursively. -/
theorem canonical_copy_spec_witness :
    (⟨"o", {}, 0, "m", "n", some (Canonical.toErr ⟨"i", {}, 0, "", "", none⟩)⟩ :
        Canonical).Copy =
      ⟨"o", {}, 0, "m", "n",
        some (Canonical.toErr (Canonical.Copy ⟨"i", {}, 0, "", "", none⟩))⟩ :=
  ((canonical_copy_spec _).2.2 (Canonical.toErr ⟨"i", {}, 0, "", "", none⟩) rfl).1
    ⟨"i", {}, 0, "", "", none⟩ rfl

/-- C2 (code bug): the claim — and the source comment on `Wrap` — say a
zero-value receiver wrapping an error that downcasts to a `Canonical` `c2`
returns a full `Copy()` of `c2`.  Because `IsZero()` is constantly false
(see `Canonical.IsZero`), that branch of `Wrap` is dead: wrapping any
non-nil error returns the receiver's fields with `Wrapped` set to the
error.  At the claim's inputs — the zero receiver and the boxed
`Canonical` ⟨"a", "m", "n"⟩ — the result is the empty-fielded wrapper, is
not `Copy()` of that `Canonical`, and is not `Equal` to it.  (The claim's
non-Canonical half — receiver fields kept, `Wrapped = err` — is what the
code does for every argument, as the first conjunct states.) -/
theorem canonical_wrap_zero_code_bug :
    (∀ (z : Canonical) (e : GoErr), z.Wrap (some e) = { z with Wrapped := some e }) ∧
    ({} : Canonical).Wrap (some (Canonical.toErr ⟨"a", {}, 0, "m", "n", none⟩)) =
      ⟨"", {}, 0, "", "", some (Canonical.toErr ⟨"a", {}, 0, "m", "n", none⟩)⟩ ∧
    (({} : Canonical).Wrap
        (some (Canonical.toErr ⟨"a", {}, 0, "m", "n", none⟩))).Equal
      (Canonical.toErr ⟨"a", {}, 0, "m", "n", none⟩) = false ∧
    ({} : Canonical).Wrap (some (Canonical.toErr ⟨"a", {}, 0, "m", "n", none⟩)) ≠
      Canonical.Copy ⟨"a", {}, 0, "m", "n", none⟩ := by
  refine ⟨fun z e => rfl, rfl, rfl, ?_⟩
  intro h
  have h2 := (Canonical.Copy_fields ⟨"a", {}, 0, "m", "n", none⟩).1
  have h1 : ("" : String) = "a" := by
    calc ("" : String)
        = (Canonical.Wrap {}
            (some (Canonical.toErr ⟨"a", {}, 0, "m", "n", none⟩))).Code := rfl
      _ = (Canonical.Copy ⟨"a", {}, 0, "m", "n", none⟩).Code := congrArg Canonical.Code h
      _ = "a" := h2
  simp at h1

/-- C9: the `Flags` bitmask operations — `Has` is "any overlap nonzero",
`Set` is OR, `Clear` is AND-NOT, `Toggle` is XOR (stated both as mask
equalities and bit-by-bit); each returns a new value (the model is pure, so
the receiver is never mutated).  Includes the claim's concrete round trip. -/
theorem flags_ops_spec :
    (∀ f b : Flags, Flags.Has f b = true ↔ f &&& b ≠ 0) ∧
    (∀ f b : Flags, Flags.Set f b = (f ||| b) ∧
      ∀ i, (Flags.Set f b).testBit i = (f.testBit i || b.testBit i)) ∧
    (∀ f b : Flags, Flags.Clear f b = Nat.ldiff f b ∧
      ∀ i, (Flags.Clear f b).testBit i = (f.testBit i && !b.testBit i)) ∧
    (∀ f b : Flags, Flags.Toggle f b = (f ^^^ b) ∧
      ∀ i, (Flags.Toggle f b).testBit i = (Bool.xor (f.testBit i) (b.testBit i))) ∧
    Flags.Has (Flags.Set 0 (FlagRetryable ||| FlagTimeout)) FlagRetryable = true ∧
    Flags.Has (Flags.Clear (Flags.Set 0 (FlagRetryable ||| FlagTimeout)) FlagTimeout)
      FlagTimeout = false := by
  have hclear : Flags.Clear (Flags.Set 0 (FlagRetryable ||| FlagTimeout)) FlagTimeout = 2 := by
    have h6 : Flags.Set 0 (FlagRetryable ||| FlagTimeout) = 6 := by decide
    rw [h6]
    apply Nat.eq_of_testBit_eq
    intro i
    rw [Flags.Clear, Nat.testBit_ldiff]
    match i with
    | 0 => decide
    | 1 => decide
    | 2 => decide
    | (n + 3) =>
      have h : ∀ m : Nat, m < 8 → Nat.testBit m (n + 3) = false := by
        intro m hm
        apply Nat.testBit_eq_false_of_lt
        have h8 : (2 : Nat) ^ 3 ≤ 2 ^ (n + 3) := Nat.pow_le_pow_right (by omega) (by omega)
        omega
      rw [show FlagTimeout = 4 from rfl, h 6 (by omega), h 4 (by omega), h 2 (by omega)]
      decide
  refine ⟨?_, ?_, ?_, ?_, by decide, by rw [hclear]; decide⟩
  · intro f b
    simp [Flags.Has]
  · intro f b
    exact ⟨rfl, fun i => Nat.testBit_lor f b i⟩
  · intro f b
    exact ⟨rfl, fun i => Nat.testBit_ldiff f b i⟩
  · intro f b
    exact ⟨rfl, fun i => Nat.testBit_xor f b i⟩

/-- Witness for C9: the `Has`-iff applied at a concrete overlap. -/
theorem flags_ops_spec_witness : Flags.Has 6 2 = true :=
  (flags_ops_spec.1 6 2).mpr (by decide)

/-! ## Equation and specification lemmas for `Group.Append` -/

theorem contribs_nil : contribs [] = [] := by rw [contribs]

theorem contribs_none_cons (rest : List (Option GoErr)) :
    contribs (none :: rest) = contribs rest := by rw [contribs]

theorem contribs_group {e : GoErr} {gs : List GoErr} (hg : asGroup e = some gs)
    (rest : List (Option GoErr)) :
    contribs (some e :: rest) = contribs (gs.map some) ++ contribs rest := by
  rw [contribs]
  split
  · next gs' hg' =>
    rw [hg] at hg'
    injection hg' with h
    subst h
    rfl
  · next hg' => rw [hg] at hg'; simp at hg'

theorem contribs_canonical {e : GoErr} {c : Canonical} (hg : asGroup e = none)
    (hc : asCanonical e = some c) (rest : List (Option GoErr)) :
    contribs (some e :: rest) = c.toErr :: contribs rest := by
  rw [contribs]
  split
  · next gs' hg' => rw [hg] at hg'; simp at hg'
  · next hg' => rw [hc]

theorem contribs_unknown {e : GoErr} (hg : asGroup e = none)
    (hc : asCanonical e = none) (rest : List (Option GoErr)) :
    contribs (some e :: rest) = (ErrUnknown.Wrap (some e)).toErr :: contribs rest := by
  rw [contribs]
  split
  · next gs' hg' => rw [hg] at hg'; simp at hg'
  · next hg' => rw [hc]

theorem Group.Append_nil (g : Group) : Group.Append g [] = g := by rw [Group.Append]

theorem Group.Append_none (g : Group) (rest : List (Option GoErr)) :
    Group.Append g (none :: rest) = Group.Append g rest := by rw [Group.Append]

theorem Group.Append_group {e : GoErr} {gs : List GoErr} (hg : asGroup e = some gs)
    (g : Group) (rest : List (Option GoErr)) :
    Group.Append g (some e :: rest) = Group.Append (Group.Append g (gs.map some)) rest := by
  rw [Group.Append]
  split
  · next gs' hg' =>
    rw [hg] at hg'
    injection hg' with h
    subst h
    rfl
  · next hg' => rw [hg] at hg'; simp at hg'

theorem Group.Append_canonical {e : GoErr} {c : Canonical} (hg : asGroup e = none)
    (hc : asCanonical e = some c) (g : Group) (rest : List (Option GoErr)) :
    Group.Append g (some e :: rest) = Group.Append ⟨g.Errors ++ [c.toErr]⟩ rest := by
  rw [Group.Append]
  split
  · next gs' hg' => rw [hg] at hg'; simp at hg'
  · next hg' => rw [hc]

theorem Group.Append_unknown {e : GoErr} (hg : asGroup e = none)
    (hc : asCanonical e = none) (g : Group) (rest : List (Option GoErr)) :
    Group.Append g (some e :: rest) =
      Group.Append ⟨g.Errors ++ [(ErrUnknown.Wrap (some e)).toErr]⟩ rest := by
  rw [Group.Append]
  split
  · next gs' hg' => rw [hg] at hg'; simp at hg'
  · next hg' => rw [hc]

/-- `Group.Append` appends exactly the flat contribution of its arguments to
the end of the existing member list. -/
theorem Group.Append_eq :
    ∀ (g : Group) (errs : List (Option GoErr)),
      Group.Append g errs = ⟨g.Errors ++ contribs errs⟩ := by
  apply Group.Append.induct (fun g errs => Group.Append g errs = ⟨g.Errors ++ contribs errs⟩)
  · intro g
    rw [Group.Append_nil, contribs_nil]
    cases g
    simp
  · intro g rest ih
    rw [Group.Append_none, contribs_none_cons, ih]
  · intro g e rest gs hg ih1 ih2
    rw [Group.Append_group hg, contribs_group hg, ih2, ih1]
    simp
  · intro g e rest hg c hc ih
    rw [Group.Append_canonical hg hc, contribs_canonical hg hc, ih]
    simp
  · intro g e rest hg hc ih
    rw [Group.Append_unknown hg hc, contribs_unknown hg hc, ih]
    simp

/-- Shape test: is this error value a `Canonical` (the only implementor of
the `Error` interface)? -/
def GoErr.isCanonical : GoErr → Bool
  | .canonical _ _ _ _ _ _ => true
  | _ => false

/-- Everything `Append` adds to a group is a `Canonical` value (never a
`*Group`, a `chain` or a bare foreign error). -/
theorem contribs_all_canonical :
    ∀ errs : List (Option GoErr), ∀ x ∈ contribs errs, x.isCanonical = true := by
  apply contribs.induct (fun errs => ∀ x ∈ contribs errs, x.isCanonical = true)
  · rw [contribs_nil]
    simp
  · intro rest ih
    rw [contribs_none_cons]
    exact ih
  · intro e rest gs hg ih1 ih2
    rw [contribs_group hg]
    intro x hx
    rcases List.mem_append.mp hx with h | h
    · exact ih1 x h
    · exact ih2 x h
  · intro e rest hg c hc ih
    rw [contribs_canonical hg hc]
    intro x hx
    rcases List.mem_cons.mp hx with h | h
    · subst h; rfl
    · exact ih x h
  · intro e rest hg hc ih
    rw [contribs_unknown hg hc]
    intro x hx
    rcases List.mem_cons.mp hx with h | h
    · subst h; rfl
    · exact ih x h

mutual

/-- `NestedGroup e cs`: `e` is a tree of groups-containing-groups whose
in-order sequence of `Canonical` members is `cs`.  A leaf is a `Canonical`
member whose own wrap chain reaches no `*Group` (otherwise `Append` would
flatten through it and discard it); a node is a `*Group` over child trees. -/
inductive NestedGroup : GoErr → List GoErr → Prop where
  | leaf (c : Canonical) : asGroup c.toErr = none → NestedGroup c.toErr [c.toErr]
  | node (gs cs : List GoErr) : NestedGroupList gs cs → NestedGroup (GoErr.group gs) cs

/-- Member-list version of `NestedGroup`: the concatenation of the members'
canonical sequences. -/
inductive NestedGroupList : List GoErr → List GoErr → Prop where
  | nil : NestedGroupList [] []
  | cons {e : GoErr} {cs : List GoErr} {rest : List GoErr} {cs' : List GoErr} :
      NestedGroup e cs → NestedGroupList rest cs' →
      NestedGroupList (e :: rest) (cs ++ cs')

end

/-- Splitting off the first (non-nil) argument of a contribution. -/
theorem contribs_cons_split (e : GoErr) (l : List (Option GoErr)) :
    contribs (some e :: l) = contribs [some e] ++ contribs l := by
  cases hg : asGroup e with
  | some gs =>
    rw [contribs_group hg l, contribs_group hg [], contribs_nil, List.append_nil]
  | none =>
    cases hc : asCanonical e with
    | some c =>
      rw [contribs_canonical hg hc l, contribs_canonical hg hc [], contribs_nil]
      rfl
    | none =>
      rw [contribs_unknown hg hc l, contribs_unknown hg hc [], contribs_nil]
      rfl

/-- A nested group tree contributes exactly its in-order canonical leaves. -/
theorem contribs_nestedGroup :
    ∀ (e : GoErr) (cs : List GoErr), NestedGroup e cs → contribs [some e] = cs := by
  intro e cs h
  refine @NestedGroup.rec
    (fun e cs _ => contribs [some e] = cs)
    (fun gs cs _ => contribs (gs.map some) = cs)
    ?_ ?_ ?_ ?_ e cs h
  · intro c hc
    rw [contribs_canonical hc (asCanonical_toErr c) [], contribs_nil]
  · intro gs cs' hl ih
    rw [contribs_group (show asGroup (GoErr.group gs) = some gs from rfl) [],
      contribs_nil, List.append_nil]
    exact ih
  · exact contribs_nil
  · intro e' cs1 rest cs2 h1 hl ih1 ihl
    rw [List.map_cons, contribs_cons_split, ih1, ihl]

/-- C3: the flattening invariant — `Append` only ever adds `Canonical`
values to `Errors` (so a group of canonicals stays a group of canonicals,
never containing a `*Group`); appending a nested tree of
groups-containing-groups holding N canonical leaves to an empty group
yields exactly those N canonicals, flat and in order; and `Append` extends
`Errors` at the end, never reordering the existing members. -/
theorem group_flatten_spec :
    (∀ (g : Group) (errs : List (Option GoErr)),
      (∀ x ∈ g.Errors, x.isCanonical = true) →
      ∀ x ∈ (Group.Append g errs).Errors, x.isCanonical = true) ∧
    (∀ (gs cs : List GoErr), NestedGroup (GoErr.group gs) cs →
      (Group.Append ⟨[]⟩ [some (GoErr.group gs)]).Errors = cs ∧
      ∀ x ∈ (Group.Append ⟨[]⟩ [some (GoErr.group gs)]).Errors, x.isCanonical = true) ∧
    (∀ (g : Group) (errs : List (Option GoErr)),
      ∃ tail, (Group.Append g errs).Errors = g.Errors ++ tail) := by
  refine ⟨?_, ?_, ?_⟩
  · intro g errs hg x hx
    rw [Group.Append_eq] at hx
    rcases List.mem_append.mp hx with h | h
    · exact hg x h
    · exact contribs_all_canonical errs x h
  · intro gs cs h
    have he : (Group.Append ⟨[]⟩ [some (GoErr.group gs)]).Errors = cs := by
      rw [Group.Append_eq, contribs_nestedGroup _ _ h]
      rfl
    refine ⟨he, ?_⟩
    intro x hx
    rw [Group.Append_eq] at hx
    rcases List.mem_append.mp hx with h' | h'
    · cases h'
    · exact contribs_all_canonical _ x h'
  · intro g errs
    exact ⟨contribs errs, by rw [Group.Append_eq]⟩

/-- Witness for C3: a two-level nest `[a, group [b]]` flattens to `[a, b]`. -/
theorem group_flatten_spec_witness :
    (Group.Append ⟨[]⟩
        [some (GoErr.group
          [Canonical.toErr ⟨"a", {}, 0, "", "", none⟩,
           GoErr.group [Canonical.toErr ⟨"b", {}, 0, "", "", none⟩]])]).Errors =
      [Canonical.toErr ⟨"a", {}, 0, "", "", none⟩,
       Canonical.toErr ⟨"b", {}, 0, "", "", none⟩] :=
  (group_flatten_spec.2.1 _ _
    (NestedGroup.node _ _
      (NestedGroupList.cons (NestedGroup.leaf ⟨"a", {}, 0, "", "", none⟩ rfl)
        (NestedGroupList.cons
          (NestedGroup.node _ _
            (NestedGroupList.cons (NestedGroup.leaf ⟨"b", {}, 0, "", "", none⟩ rfl)
              NestedGroupList.nil))
          NestedGroupList.nil)))).1

/-- C10: `Append` classifies each non-nil argument by its whole unwrap
chain: if the chain reaches a `*Group`, the argument is replaced by that
group's flattened contribution (an outer non-group wrapper is discarded);
else if the chain reaches a `Canonical`, that inner `Canonical` is appended;
only an argument whose chain holds neither is wrapped via the `ErrUnknown`
sentinel, which carries the `Unknown` flag. -/
theorem append_classify_spec :
    ∀ (g : Group) (e : GoErr),
      (∀ gs, asGroup e = some gs →
        (Group.Append g [some e]).Errors = g.Errors ++ contribs (gs.map some)) ∧
      (asGroup e = none → ∀ c, asCanonical e = some c →
        (Group.Append g [some e]).Errors = g.Errors ++ [c.toErr]) ∧
      (asGroup e = none → asCanonical e = none →
        (Group.Append g [some e]).Errors = g.Errors ++ [(ErrUnknown.Wrap (some e)).toErr] ∧
        (ErrUnknown.Wrap (some e)).Flags = FlagUnknown ∧
        Flags.Has (ErrUnknown.Wrap (some e)).Flags FlagUnknown = true) ∧
      (∀ (cw : Canonical) (gs : List GoErr), cw.Wrapped = some (GoErr.group gs) →
        (Group.Append g [some cw.toErr]).Errors = g.Errors ++ contribs (gs.map some)) ∧
      (∀ (msg : String) (c : Canonical), asGroup c.toErr = none →
        (Group.Append g [some (GoErr.foreign msg (some c.toErr))]).Errors =
          g.Errors ++ [c.toErr]) := by
  intro g e
  have hGroup : ∀ (e' : GoErr) (gs : List GoErr), asGroup e' = some gs →
      (Group.Append g [some e']).Errors = g.Errors ++ contribs (gs.map some) := by
    intro e' gs hg
    rw [Group.Append_eq, contribs_group hg [], contribs_nil, List.append_nil]
  have hCanonical : ∀ (e' : GoErr) (c : Canonical), asGroup e' = none →
      asCanonical e' = some c →
      (Group.Append g [some e']).Errors = g.Errors ++ [c.toErr] := by
    intro e' c hg hc
    rw [Group.Append_eq, contribs_canonical hg hc [], contribs_nil]
  refine ⟨fun gs hg => hGroup e gs hg, fun hg c hc => hCanonical e c hg hc, ?_, ?_, ?_⟩
  · intro hg hc
    refine ⟨?_, rfl, ?_⟩
    · rw [Group.Append_eq, contribs_unknown hg hc [], contribs_nil]
    · show Flags.Has FlagUnknown FlagUnknown = true
      decide
  · intro cw gs hw
    apply hGroup
    cases cw with
    | mk code extras flags message ns wrapped =>
      simp only at hw
      subst hw
      rfl
  · intro msg c hg
    apply hCanonical
    · show asGroup c.toErr = none
      exact hg
    · exact asCanonical_toErr c

/-- Witness for C10: a foreign error wrapping a concrete `Canonical` is
appended as that inner `Canonical`. -/
theorem append_classify_spec_witness :
    (Group.Append ⟨[]⟩
        [some (GoErr.foreign "io failed"
          (some (Canonical.toErr ⟨"x", {}, 0, "m", "n", none⟩)))]).Errors =
      [Canonical.toErr ⟨"x", {}, 0, "m", "n", none⟩] :=
  (append_classify_spec ⟨[]⟩ (GoErr.group [])).2.2.2.2 "io failed"
    ⟨"x", {}, 0, "m", "n", none⟩ rfl

/-- C6 counterexample: the claim promises `NewGroup(err).ErrorOrNil() != nil`
for every non-nil `err`, but for the non-nil argument `&Group{}` (an empty
group) flattening contributes no members and `ErrorOrNil` returns nil. -/
theorem errorOrNil_counterexample :
    Group.ErrorOrNil (some (NewGroup [some (GoErr.group [])])) = none := by
  have h : NewGroup [some (GoErr.group [])] = ⟨[]⟩ := by
    rw [NewGroup, Group.Append_eq,
      contribs_group (show asGroup (GoErr.group []) = some [] from rfl) [],
      contribs_nil]
    simp [contribs_nil]
  rw [h]
  rfl

/-- C6 (amended): `ErrorOrNil` is nil-receiver-safe and returns nil iff the
group is nil or has zero members, else the group itself as an error;
`NewGroup().ErrorOrNil() == nil`; and `NewGroup(err).ErrorOrNil()` is
non-nil for a non-nil `err` exactly when `err`'s flattened contribution is
non-empty — in particular for every `err` whose unwrap chain reaches no
`*Group` (an err reaching a group with an empty flattening yields nil, as
the counterexample shows). -/
theorem errorOrNil_spec :
    Group.ErrorOrNil none = none ∧
    (∀ g : Group, (Group.ErrorOrNil (some g) = none ↔ g.Errors = [])) ∧
    (∀ g : Group, g.Errors ≠ [] →
      Group.ErrorOrNil (some g) = some (GoErr.group g.Errors)) ∧
    Group.ErrorOrNil (some (NewGroup [])) = none ∧
    (∀ e : GoErr,
      Group.ErrorOrNil (some (NewGroup [some e])) = none ↔ contribs [some e] = []) ∧
    (∀ e : GoErr, asGroup e = none →
      Group.ErrorOrNil (some (NewGroup [some e])) ≠ none) := by
  have hbase : ∀ g : Group, (Group.ErrorOrNil (some g) = none ↔ g.Errors = []) := by
    intro g
    rw [Group.ErrorOrNil]
    rcases g with ⟨errs⟩
    cases errs <;> simp
  have hnew : ∀ l, (NewGroup l).Errors = contribs l := by
    intro l
    rw [NewGroup, Group.Append_eq]
    simp
  refine ⟨rfl, hbase, ?_, ?_, ?_, ?_⟩
  · intro g hne
    rw [Group.ErrorOrNil]
    rcases g with ⟨errs⟩
    cases errs with
    | nil => exact absurd rfl hne
    | cons a l => simp
  · rw [Group.ErrorOrNil]
    rw [hnew, contribs_nil]
    rfl
  · intro e
    rw [hbase, hnew]
  · intro e hg h
    rw [hbase, hnew] at h
    cases hc : asCanonical e with
    | some c => rw [contribs_canonical hg hc] at h; cases h
    | none => rw [contribs_unknown hg hc] at h; cases h

/-- Witness for C6: a concrete canonical argument makes `ErrorOrNil`
non-nil. -/
theorem errorOrNil_spec_witness :
    Group.ErrorOrNil
      (some (NewGroup [some (Canonical.toErr ⟨"a", {}, 0, "m", "n", none⟩)])) ≠ none :=
  errorOrNil_spec.2.2.2.2.2 (Canonical.toErr ⟨"a", {}, 0, "m", "n", none⟩) rfl

/-- After `n` steps (for `n` below the member count) the chain cursor holds
exactly the members from index `n` on. -/
theorem chainAt_drop :
    ∀ (n : Nat) (es : List GoErr), n < es.length → chainAt es n = some (es.drop n) := by
  intro n
  induction n with
  | zero => intro es h; simp [chainAt]
  | succ n ih =>
    intro es h
    have h2 : ¬ es.length ≤ 1 := by omega
    have hu : chain.Unwrap es = some (GoErr.chainE (es.drop 1)) := by
      rw [chain.Unwrap, if_neg h2]
    rw [chainAt, hu]
    show chainAt (es.drop 1) n = some (es.drop (n + 1))
    rw [ih (es.drop 1) (by simp; omega)]
    simp [List.drop_drop, Nat.add_comm]

/-- C4: `Group.Unwrap` cursor semantics — nil receiver or zero members give
nil; exactly one member is returned directly (not wrapped in a chain); with
`N ≥ 2` members the result is a `chain` over the members whose successive
`Unwrap` steps expose each member once, in insertion order (after `n` steps
the cursor holds `Errors.drop n`, whose head — the member `Error`/`Is`/`As`
act on — is member `n`), and the step after the last member returns nil;
a chain with one remaining member unwraps to nil. -/
theorem group_unwrap_spec :
    Group.Unwrap none = none ∧
    (∀ g : Group, g.Errors = [] → Group.Unwrap (some g) = none) ∧
    (∀ (g : Group) (e : GoErr), g.Errors = [e] → Group.Unwrap (some g) = some e) ∧
    (∀ g : Group, 2 ≤ g.Errors.length →
      Group.Unwrap (some g) = some (GoErr.chainE g.Errors) ∧
      (∀ n, n < g.Errors.length →
        chainAt g.Errors n = some (g.Errors.drop n) ∧
        (g.Errors.drop n).head? = g.Errors[n]?) ∧
      chain.Unwrap (g.Errors.drop (g.Errors.length - 1)) = none) ∧
    (∀ e : GoErr, chain.Unwrap [e] = none) := by
  refine ⟨rfl, ?_, ?_, ?_, ?_⟩
  · intro g h
    rw [Group.Unwrap, h]
    rfl
  · intro g e h
    rw [Group.Unwrap, h]
    rfl
  · intro g h
    refine ⟨?_, ?_, ?_⟩
    · rw [Group.Unwrap]
      rw [if_neg (by omega), if_neg (by omega)]
    · intro n hn
      exact ⟨chainAt_drop n g.Errors hn, List.head?_drop g.Errors n⟩
    · rw [chain.Unwrap, if_pos (by simp; omega)]
  · intro e
    rw [chain.Unwrap]
    rfl

/-- Witness for C4: a concrete two-member group unwraps to a chain over the
two members, and the chain traversal facts hold at it. -/
theorem group_unwrap_spec_witness :
    Group.Unwrap (some ⟨[GoErr.foreign "a" none, GoErr.foreign "b" none]⟩) =
      some (GoErr.chainE [GoErr.foreign "a" none, GoErr.foreign "b" none]) :=
  (group_unwrap_spec.2.2.2.1 ⟨[GoErr.foreign "a" none, GoErr.foreign "b" none]⟩
    (by simp)).1

theorem joinStrings_cons₂ (sep x y : String) (rest : List String) :
    joinStrings sep (x :: y :: rest) = x ++ sep ++ joinStrings sep (y :: rest) := by
  rw [joinStrings] <;> simp

theorem GroupFormatterDefault_cons₂ (e1 e2 : GoErr) (rest : List GoErr) :
    GroupFormatterDefault (e1 :: e2 :: rest) =
      "\n" ++ joinStrings "\n" (bulletPoints (e1 :: e2 :: rest)) ++ "\n\n" := by
  rw [GroupFormatterDefault] <;> simp

theorem bulletPoints_eq_map :
    ∀ es : List GoErr, bulletPoints es = es.map (fun e => "* " ++ errorString e) := by
  intro es
  induction es with
  | nil => rw [bulletPoints]; rfl
  | cons e rest ih => rw [bulletPoints, ih]; rfl

/-- Any member of the joined bullet list occupies a line of its own in the
final output (a newline on each side, the trailing one from the closing
`"\n\n"` when the member is last). -/
theorem joinStrings_extract :
    ∀ (l : List String) (s : String), s ∈ l →
      ∃ p q : String, "\n" ++ joinStrings "\n" l ++ "\n\n" = p ++ "\n" ++ s ++ "\n" ++ q := by
  intro l
  induction l with
  | nil => intro s hs; cases hs
  | cons x rest ih =>
    intro s hs
    cases rest with
    | nil =>
      rw [List.mem_singleton] at hs
      subst hs
      refine ⟨"", "\n", ?_⟩
      rw [joinStrings]
      simp [String.append_assoc]
    | cons y rest' =>
      rcases List.mem_cons.mp hs with h | hmem
      · subst h
        refine ⟨"", joinStrings "\n" (y :: rest') ++ "\n\n", ?_⟩
        rw [joinStrings_cons₂]
        simp [String.append_assoc]
      · rcases ih s hmem with ⟨p, q, hpq⟩
        refine ⟨"\n" ++ x ++ p, q, ?_⟩
        calc "\n" ++ joinStrings "\n" (x :: y :: rest') ++ "\n\n"
            = "\n" ++ (x ++ "\n" ++ joinStrings "\n" (y :: rest')) ++ "\n\n" := by
              rw [joinStrings_cons₂]
          _ = ("\n" ++ x) ++ ("\n" ++ joinStrings "\n" (y :: rest') ++ "\n\n") := by
              simp [String.append_assoc]
          _ = ("\n" ++ x) ++ (p ++ "\n" ++ s ++ "\n" ++ q) := by rw [hpq]
          _ = ("\n" ++ x ++ p) ++ "\n" ++ s ++ "\n" ++ q := by
              simp [String.append_assoc]

/-- C8: the default group formatter — the empty member list renders as
`""`; a single member renders as that member's text verbatim; two or more
members render as `"* "`-bullet lines, one per member in original order,
joined by newlines (wrapped in a leading newline and a trailing blank
line), so each member's bullet occurs as its own line of the output. -/
theorem default_formatter_spec :
    GroupFormatterDefault [] = "" ∧
    (∀ e : GoErr, GroupFormatterDefault [e] = errorString e) ∧
    (∀ (e1 e2 : GoErr) (rest : List GoErr),
      GroupFormatterDefault (e1 :: e2 :: rest) =
        "\n" ++ joinStrings "\n"
          ((e1 :: e2 :: rest).map (fun e => "* " ++ errorString e)) ++ "\n\n") ∧
    (∀ es : List GoErr, 2 ≤ es.length → ∀ e ∈ es, ∃ p q : String,
      GroupFormatterDefault es = p ++ "\n" ++ ("* " ++ errorString e) ++ "\n" ++ q) := by
  have hmulti : ∀ (e1 e2 : GoErr) (rest : List GoErr),
      GroupFormatterDefault (e1 :: e2 :: rest) =
        "\n" ++ joinStrings "\n"
          ((e1 :: e2 :: rest).map (fun e => "* " ++ errorString e)) ++ "\n\n" := by
    intro e1 e2 rest
    rw [GroupFormatterDefault_cons₂, bulletPoints_eq_map]
  refine ⟨by rw [GroupFormatterDefault], fun e => by rw [GroupFormatterDefault], hmulti, ?_⟩
  intro es hlen e he
  match es, hlen with
  | e1 :: e2 :: rest, _ =>
    rw [hmulti]
    exact joinStrings_extract _ _ (List.mem_map_of_mem (fun x => "* " ++ errorString x) he)

/-- Witness for C8: the formatter at two concrete foreign errors produces
the expected bullet list. -/
theorem default_formatter_spec_witness :
    GroupFormatterDefault [GoErr.foreign "a" none, GoErr.foreign "b" none] =
      "\n* a\n* b\n\n" := by
  rw [default_formatter_spec.2.2.1 (GoErr.foreign "a" none) (GoErr.foreign "b" none) []]
  have ha : errorString (GoErr.foreign "a" none) = "a" := by rw [errorString]
  have hb : errorString (GoErr.foreign "b" none) = "b" := by rw [errorString]
  rw [List.map_cons, List.map_cons, List.map_nil, ha, hb]
  rfl

end GoErrors